import Mathlib

/-!
# Verification of the classy data pipeline against its specification

Shallow embedding of the alignment/batching pipeline of the `classy` library:

* `src/classy/data/dataset/hf.py` — sample normalizers (`HFSequenceDataset`,
  `HFTokenDataset`, `HFQADataset`) and their per-field batchers;
* `src/classy/pl_modules/hf.py`  — `HFTokensPLModule.forward` (layer merge and
  subword-to-token pooling), the validation/test label handling, and
  `HFQAPLModule.predict`;
* `src/classy/utils/commons.py`  — `add_noise_to_value`.

Machine tensors are modelled as nested `List Int` / `List Nat`; a Python
expression that can raise is modelled as an `Option`- or `Except`-valued
function, where `none` / `.error` marks the raised exception.  External
collaborators (the HuggingFace tokenizer, the vocabulary) are abstracted as
structures of functions; concrete toy instances are used for closed
evaluations.
-/

/-- Evaluation of a Python list comprehension / loop whose body may raise:
`none` as soon as one element raises (the exception propagates). -/
def listMapOpt {α β : Type} (f : α → Option β) : List α → Option (List β)
  | [] => some []
  | x :: xs =>
    match f x, listMapOpt f xs with
    | some y, some ys => some (y :: ys)
    | _, _ => none

/-- Evaluation of a Python loop whose body may raise a named exception:
the first exception aborts the whole loop. -/
def listMapExcept {α β : Type} (f : α → Except String β) : List α → Except String (List β)
  | [] => .ok []
  | x :: xs =>
    match f x with
    | .error e => .error e
    | .ok y =>
      match listMapExcept f xs with
      | .error e => .error e
      | .ok ys => .ok (y :: ys)

theorem listMapOpt_eq_map {α β : Type} (f : α → Option β) (g : α → β) :
    ∀ xs : List α, (∀ x ∈ xs, f x = some (g x)) → listMapOpt f xs = some (xs.map g) := by
  intro xs
  induction xs with
  | nil => intro _; rfl
  | cons x xs ih =>
    intro h
    have hx : f x = some (g x) := h x (List.mem_cons_self x xs)
    have hxs : listMapOpt f xs = some (xs.map g) := ih fun y hy => h y (List.mem_cons_of_mem x hy)
    simp [listMapOpt, hx, hxs]

/-- `classy.utils.vocabulary.Vocabulary`, abstracted to its id↔label lookup
(`get_idx` over a namespace); ids are natural numbers. -/
structure Vocabulary where
  get_idx : String → String → Nat

/-! ## `add_noise_to_value` (src/classy/utils/commons.py, lines 17-20)

`noise_value = value * noise_param; noise = uniform(-noise_value, noise_value);
return max(1, value + noise)`.  The random draw is a parameter constrained by
the hypothesis that it lies in the uniform support. -/

def noise_bound (value noise_param : ℚ) : ℚ := value * noise_param

def add_noise_to_value (value noise : ℚ) : ℚ := max 1 (value + noise)

/-- C9: for every positive integer section size `v`, noise fraction `p ≥ 0`
and any uniform noise draw in `[-v*p, v*p]`, `add_noise_to_value` returns a
value in `[v - v*p, v + v*p]` that is never smaller than 1. -/
theorem add_noise_to_value_bounds (n : ℕ) (p noise : ℚ)
    (hn : 0 < n) (hp : 0 ≤ p)
    (h1 : -(noise_bound (n : ℚ) p) ≤ noise) (h2 : noise ≤ noise_bound (n : ℚ) p) :
    (n : ℚ) - (n : ℚ) * p ≤ add_noise_to_value (n : ℚ) noise ∧
    add_noise_to_value (n : ℚ) noise ≤ (n : ℚ) + (n : ℚ) * p ∧
    1 ≤ add_noise_to_value (n : ℚ) noise := by
  have hv : (1 : ℚ) ≤ (n : ℚ) := by exact_mod_cast hn
  have hvp : 0 ≤ (n : ℚ) * p := mul_nonneg (by linarith) hp
  unfold add_noise_to_value noise_bound at *
  refine ⟨?_, ?_, le_max_left _ _⟩
  · exact le_max_of_le_right (by linarith)
  · exact max_le (by linarith) (by linarith)

theorem add_noise_to_value_bounds_witness :
    (4 : ℚ) - 4 * (1 / 2) ≤ add_noise_to_value 4 (-2) ∧
    add_noise_to_value 4 (-2) ≤ 4 + 4 * (1 / 2) ∧
    1 ≤ add_noise_to_value 4 (-2) := by
  have h := add_noise_to_value_bounds 4 (1 / 2) (-2)
    (by norm_num) (by norm_num) (by norm_num [noise_bound]) (by norm_num [noise_bound])
  norm_num at h ⊢
  exact h

/-! ## Token-task label handling in validation vs test steps
(src/classy/pl_modules/hf.py)

`validation_step` (lines 220-221):
  `labels = batch["labels"].clone(); labels[labels == -100] = pad_idx`
— a boolean mask replacing every `-100` entry.

`test_step` (lines 239-240):
  `labels = batch["labels"].clone(); labels[-100] = pad_idx`
— integer indexing: the single row at position `-100` from the end is
overwritten wholesale; an `IndexError` is raised when the batch has fewer
than 100 rows. -/

def validation_step_label_transform (pad_idx : Int) (labels : List (List Int)) :
    List (List Int) :=
  labels.map (fun row => row.map (fun x => if x = -100 then pad_idx else x))

def test_step_label_transform (pad_idx : Int) (labels : List (List Int)) :
    Option (List (List Int)) :=
  if 100 ≤ labels.length then
    some (labels.set (labels.length - 100)
      (List.replicate (labels.getD (labels.length - 100) []).length pad_idx))
  else none

/-- C5: the claim that `test_step` applies the same label transformation as
`validation_step` (replace every `-100` entry by the PAD id) fails on the
code: on the one-row batch `[[-100, 3]]` with PAD id 0, the validation path
yields `[[0, 3]]` while the test path, which indexes row `-100` instead of
masking, raises `IndexError` (fewer than 100 rows). -/
theorem test_step_label_transform_differs_from_validation :
    validation_step_label_transform 0 [[-100, 3]] = [[0, 3]] ∧
    test_step_label_transform 0 [[-100, 3]] = none ∧
    test_step_label_transform 0 [[-100, 3]] ≠
      some (validation_step_label_transform 0 [[-100, 3]]) := by
  refine ⟨by decide, by decide, by decide⟩

/-! ## HFTokenDataset (src/classy/data/dataset/hf.py, lines 74-113)

The HuggingFace tokenizer is abstracted to the two operations the dataset
uses on pre-split input: `encode_plus` (the subword id sequence) and
`word_to_tokens` (the subword span of one input token, `none` when the token
produced no subwords — e.g. an empty-string token). -/

structure HFTokenizer where
  encode_plus : List String → List Nat
  word_to_tokens : List String → Nat → Option (Nat × Nat)
  pad_token_id : Int

structure TokensSample where
  tokens : List String
  labels : Option (List String)
  target : List Nat

/-- The normalized element yielded for one `TokensSample`. -/
structure TokenElem where
  input_ids : List Nat
  attention_mask : List Nat
  token_offsets : List (Nat × Nat)
  labels : Option (List Nat)
  sample : TokensSample

structure HFTokenDataset where
  tokenizer : HFTokenizer
  vocabulary : Vocabulary

/-- `HFTokenDataset.tokenize` (lines 105-113): builds the per-token subword
spans; `tuple(None)` raises `TypeError`, which is caught and turned into a
`None` return (after logging a warning). -/
def HFTokenDataset.tokenize (ds : HFTokenDataset) (tokens : List String) :
    Option (List Nat × List (Nat × Nat)) :=
  match listMapOpt (ds.tokenizer.word_to_tokens tokens) (List.range tokens.length) with
  | some offs => some (ds.tokenizer.encode_plus tokens, offs)
  | none => none

/-- Modelled from the spec: `BaseDataset` (classy/data/dataset/base.py) is not
under src/.  Its constructor, as called from `HFBaseDataset.__init__`, stores
the configuration surface of spec §6 (`samples_iterator`, `vocabulary`,
`batching_fields`, `tokens_per_batch`, `max_batch_size`, `fields_batchers`,
`section_size`, `prebatch`, `materialize`, `min_length`, `max_length`,
`for_inference`); no `labels` attribute is ever assigned to the dataset
object, so a Python read of `self.labels` finds nothing (`AttributeError`),
modelled as `none`. -/
def HFTokenDataset.attr_labels (_ds : HFTokenDataset) : Option (List String) := none

/-- `HFTokenDataset.dataset_iterator_func` (lines 88-103).  Note the source
unpacks `input_ids, token_offsets = self.tokenize(...)` with no `None` check,
and reads `self.labels[idx]` (not `token_sample.labels[idx]`) when the sample
carries labels. -/
def HFTokenDataset.dataset_iterator_func (ds : HFTokenDataset)
    (samples : List TokensSample) : Except String (List TokenElem) :=
  listMapExcept (fun s =>
    match ds.tokenize s.tokens with
    | none => .error "TypeError: cannot unpack non-iterable NoneType object"
    | some (ids, offs) =>
      match s.labels with
      | none => .ok ⟨ids, ids.map (fun _ => 1), offs, none, s⟩
      | some _ =>
        match ds.attr_labels with
        | none => .error "AttributeError: HFTokenDataset object has no attribute labels"
        | some ds_labels =>
          .ok ⟨ids, ids.map (fun _ => 1), offs,
            some (s.target.map (fun idx => ds.vocabulary.get_idx "labels" (ds_labels.getD idx ""))),
            s⟩) samples

/-- A concrete instance of the external tokenizer collaborator: every
nonempty token yields exactly one subword, an empty-string token yields no
subwords (so `word_to_tokens` returns `None` for it — the edge case named by
the spec). -/
def toy_word_to_tokens (tokens : List String) (wi : Nat) : Option (Nat × Nat) :=
  match tokens.get? wi with
  | none => none
  | some t =>
    if t.length = 0 then none
    else
      some (((tokens.take wi).filter (fun u => u.length ≠ 0)).length,
        ((tokens.take wi).filter (fun u => u.length ≠ 0)).length + 1)

def toy_tokenizer : HFTokenizer where
  encode_plus tokens := List.range ((tokens.filter (fun u => u.length ≠ 0)).length)
  word_to_tokens := toy_word_to_tokens
  pad_token_id := 0

def toy_vocabulary : Vocabulary where
  get_idx _ns elem := if elem = "B-PER" then 1 else 0

def toy_token_dataset : HFTokenDataset := ⟨toy_tokenizer, toy_vocabulary⟩

/-- C1: the claim that a sample whose tokenization fails to produce a subword
span is skipped (warning recorded, iteration continues, no exception past
batch construction) fails on the code: `tokenize` returns `None` for the
sample `["hi", ""]`, and `dataset_iterator_func` unpacks that `None` without
a check, so a `TypeError` propagates and the following good sample is never
yielded — while the same good sample alone is normalized fine. -/
theorem token_tokenization_failure_raises_instead_of_skipping :
    toy_token_dataset.tokenize ["hi", ""] = none ∧
    toy_token_dataset.dataset_iterator_func
        [⟨["hi", ""], none, []⟩, ⟨["ok"], none, []⟩] =
      .error "TypeError: cannot unpack non-iterable NoneType object" ∧
    toy_token_dataset.dataset_iterator_func [⟨["ok"], none, []⟩] =
      .ok [⟨[0], [1], [(0, 1)], none, ⟨["ok"], none, []⟩⟩] := by
  refine ⟨rfl, rfl, rfl⟩

/-- C2: the claim that a labeled sample's normalized `labels` value is built
from the sample's own labels fails on the code: the comprehension reads
`self.labels[idx]` — an attribute the dataset object does not have — so a
labeled sample raises `AttributeError` instead of yielding label ids. -/
theorem token_labels_use_dataset_attribute_not_sample_labels :
    toy_token_dataset.dataset_iterator_func [⟨["John"], some ["B-PER"], [0]⟩] =
      .error "AttributeError: HFTokenDataset object has no attribute labels" ∧
    ∀ es, toy_token_dataset.dataset_iterator_func [⟨["John"], some ["B-PER"], [0]⟩] ≠ .ok es := by
  refine ⟨rfl, ?_⟩
  intro es h
  rw [show toy_token_dataset.dataset_iterator_func [⟨["John"], some ["B-PER"], [0]⟩] =
      .error "AttributeError: HFTokenDataset object has no attribute labels" from rfl] at h
  exact Except.noConfusion h

/-! ## Token-task Field Collator
(`HFTokenDataset._init_fields_batcher`, src/classy/data/dataset/hf.py lines 79-86) -/

/-- Modelled from the spec: `batchify` lives in classy/data/dataset/base.py,
which is not under src/.  Per spec §4.3 every padded field is "right-pad ...
to batch max length" with the field's padding value (the behaviour of
`torch.nn.utils.rnn.pad_sequence` with `batch_first=True`). -/
def batchify (padding_value : Int) (lst : List (List Int)) : List (List Int) :=
  let max_len := (lst.map List.length).foldl Nat.max 0
  lst.map (fun s => s ++ List.replicate (max_len - s.length) padding_value)

def batch_max_len (lst : List (List Int)) : Nat :=
  (lst.map List.length).foldl Nat.max 0

theorem foldl_max_init_le (l : List Nat) : ∀ init : Nat, init ≤ l.foldl Nat.max init := by
  induction l with
  | nil => intro init; exact Nat.le_refl _
  | cons x xs ih =>
    intro init
    exact Nat.le_trans (Nat.le_max_left init x) (ih (Nat.max init x))

theorem le_foldl_max_of_mem {a : Nat} {l : List Nat} (h : a ∈ l) :
    ∀ init : Nat, a ≤ l.foldl Nat.max init := by
  induction l with
  | nil => exact absurd h (List.not_mem_nil a)
  | cons x xs ih =>
    intro init
    rcases List.mem_cons.mp h with h' | h'
    · subst h'
      exact Nat.le_trans (Nat.le_max_right init a) (foldl_max_init_le xs _)
    · exact ih h' _

theorem length_le_batch_max_len {s : List Int} {lst : List (List Int)} (h : s ∈ lst) :
    s.length ≤ batch_max_len lst :=
  le_foldl_max_of_mem (List.mem_map_of_mem List.length h) 0

theorem getD_replicate_of_lt {α : Type} (z d : α) {k j : Nat} (h : j < k) :
    (List.replicate k z).getD j d = z := by
  rw [List.getD_eq_getElem _ _ (by simpa using h)]
  exact List.getElem_replicate _ _

/-- Row-wise characterization of `batchify`: each row keeps its original
entries, is extended to the batch max length, and every added entry is the
padding value. -/
theorem batchify_row_spec (pad : Int) (lst : List (List Int)) (i : Nat)
    (hi : i < lst.length) :
    ((batchify pad lst).getD i []).length = batch_max_len lst ∧
    (∀ j, j < (lst.getD i []).length →
      ((batchify pad lst).getD i []).getD j 0 = (lst.getD i []).getD j 0) ∧
    (∀ j, (lst.getD i []).length ≤ j → j < batch_max_len lst →
      ((batchify pad lst).getD i []).getD j 0 = pad) := by
  have hmem : lst.getD i [] ∈ lst := by
    rw [List.getD_eq_getElem _ _ hi]
    exact List.getElem_mem hi
  have hle : (lst.getD i []).length ≤ batch_max_len lst := length_le_batch_max_len hmem
  have hrow : (batchify pad lst).getD i [] =
      lst.getD i [] ++ List.replicate (batch_max_len lst - (lst.getD i []).length) pad := by
    unfold batchify
    rw [List.getD_eq_getElem _ _ (by simpa using hi), List.getElem_map,
      List.getD_eq_getElem _ _ hi]
    rfl
  refine ⟨?_, ?_, ?_⟩
  · rw [hrow, List.length_append, List.length_replicate]
    omega
  · intro j hj
    rw [hrow, List.getD_append _ _ _ _ hj]
  · intro j hj1 hj2
    rw [hrow, List.getD_append_right _ _ _ _ hj1]
    exact getD_replicate_of_lt _ _ (by omega)

inductive TokenDatasetField where
  | input_ids
  | attention_mask
  | labels
  | samples
  | token_offsets
deriving DecidableEq

/-- The `fields_batcher` dispatch table of `HFTokenDataset` (lines 79-86):
`input_ids ↦ batchify(pad_token_id)`, `attention_mask ↦ batchify(0)`,
`labels ↦ batchify(-100)` (the cross-entropy ignore index), and `None` for
`samples` and `token_offsets` (left as ordered lists, never made tensors). -/
def HFTokenDataset.fields_batcher (pad_token_id : Int) :
    TokenDatasetField → Option (List (List Int) → List (List Int))
  | .input_ids => some (batchify pad_token_id)
  | .attention_mask => some (batchify 0)
  | .labels => some (batchify (-100))
  | .samples => none
  | .token_offsets => none

/-- C6: in the token-task Field Collator, per-token label sequences are
right-padded to the batch max length with the ignore sentinel `-100` (which
no vocabulary id — a natural number — can equal), `input_ids` are
right-padded with the tokenizer pad id, attention masks with `0`, and the
`token_offsets` and `samples` fields have no batching closure (they stay
ordered lists). -/
theorem token_fields_batcher_padding_correct (pad_token_id : Int) (lst : List (List Int)) :
    HFTokenDataset.fields_batcher pad_token_id .samples = none ∧
    HFTokenDataset.fields_batcher pad_token_id .token_offsets = none ∧
    HFTokenDataset.fields_batcher pad_token_id .labels = some (batchify (-100)) ∧
    HFTokenDataset.fields_batcher pad_token_id .input_ids = some (batchify pad_token_id) ∧
    HFTokenDataset.fields_batcher pad_token_id .attention_mask = some (batchify 0) ∧
    (∀ v : Vocabulary, ∀ ns e : String, ((v.get_idx ns e : Int)) ≠ -100) ∧
    (batchify (-100) lst).length = lst.length ∧
    (∀ i, i < lst.length →
      ((batchify (-100) lst).getD i []).length = batch_max_len lst ∧
      (∀ j, j < (lst.getD i []).length →
        ((batchify (-100) lst).getD i []).getD j 0 = (lst.getD i []).getD j 0) ∧
      (∀ j, (lst.getD i []).length ≤ j → j < batch_max_len lst →
        ((batchify (-100) lst).getD i []).getD j 0 = -100)) := by
  refine ⟨rfl, rfl, rfl, rfl, rfl, ?_, ?_, ?_⟩
  · intro v ns e h
    have : (0 : Int) ≤ (v.get_idx ns e : Int) := Int.natCast_nonneg _
    omega
  · unfold batchify
    simp
  · intro i hi
    exact batchify_row_spec (-100) lst i hi

theorem token_fields_batcher_padding_correct_witness :
    ((batchify (-100) [[7], [5, 6]]).getD 0 []).getD 1 0 = -100 ∧
    ((batchify (-100) [[7], [5, 6]]).getD 0 []).getD 0 0 = 7 ∧
    ((batchify (-100) [[7], [5, 6]]).getD 0 []).length = 2 := by
  obtain ⟨-, -, -, -, -, -, -, hrows⟩ := token_fields_batcher_padding_correct 3 [[7], [5, 6]]
  obtain ⟨hlen, hkeep, hpad⟩ := hrows 0 (by decide)
  refine ⟨?_, ?_, ?_⟩
  · have := hpad 1 (by decide) (by decide)
    simpa using this
  · have := hkeep 0 (by decide)
    simpa using this
  · simpa using hlen

/-! ## HFSequenceDataset (src/classy/data/dataset/hf.py, lines 47-71)

`dataset_iterator_func` wraps each sample's scalar label id in a
single-element list (line 69); `_init_fields_batcher` collates the `labels`
field with `torch.tensor(lst, dtype=torch.long)` (line 56).
`HFSentencePairDataset` inherits both behaviours unchanged (lines 116-139). -/

structure SequenceSample where
  sequence : String
  label : Option String

structure SequenceElem where
  input_ids : List Nat
  attention_mask : List Nat
  labels : Option (List Nat)
  sample : SequenceSample

def HFSequenceDataset.dataset_iterator_func (encode : String → List Nat)
    (vocab : Vocabulary) (samples : List SequenceSample) : List SequenceElem :=
  samples.map (fun s =>
    { input_ids := encode s.sequence
      attention_mask := (encode s.sequence).map (fun _ => 1)
      labels := s.label.map (fun l => [vocab.get_idx "labels" l])
      sample := s })

/-- The shape of the tensor `torch.tensor(lst, dtype=torch.long)` builds from
a list of integer lists: `[0]` for the empty list, `[n, m]` when all `n` rows
share length `m`, undefined (`ValueError`) for ragged input. -/
def torch_tensor_2d_shape (lst : List (List Nat)) : Option (List Nat) :=
  match lst with
  | [] => some [0]
  | s :: rest =>
    if rest.all (fun r => r.length = s.length) then some (lst.length :: [s.length])
    else none

/-- Modelled from the spec: batch assembly (classy/data/dataset/base.py, not
under src/) gathers, for each field of the dispatch table, the values of
exactly those elements that carry the field, in order, before applying the
field's batching closure. -/
def gather_sequence_labels (elems : List SequenceElem) : List (List Nat) :=
  elems.filterMap (fun e => e.labels)

/-- The collated `labels` field of a sequence-classification batch: the value
handed to `torch.tensor(lst, dtype=torch.long)`. -/
def collate_sequence_labels (elems : List SequenceElem) : List (List Nat) :=
  gather_sequence_labels elems

def toy_sequence_encode (s : String) : List Nat := List.range s.length

/-- C7 counterexample: for a concrete batch of two labeled sequence samples
the collated labels value is `[[1], [0]]`, whose tensor shape is `[2, 1]` —
a 2-D tensor with a trailing singleton dimension, not the claimed 1-D tensor
of length 2 (shape `[2]`). -/
theorem sequence_labels_not_1d_counterexample :
    torch_tensor_2d_shape (collate_sequence_labels
      (HFSequenceDataset.dataset_iterator_func toy_sequence_encode toy_vocabulary
        [⟨"a b", some "B-PER"⟩, ⟨"c", some "O"⟩])) = some [2, 1] ∧
    torch_tensor_2d_shape (collate_sequence_labels
      (HFSequenceDataset.dataset_iterator_func toy_sequence_encode toy_vocabulary
        [⟨"a b", some "B-PER"⟩, ⟨"c", some "O"⟩])) ≠ some [2] := by
  refine ⟨rfl, ?_⟩
  intro h
  rw [show torch_tensor_2d_shape (collate_sequence_labels
      (HFSequenceDataset.dataset_iterator_func toy_sequence_encode toy_vocabulary
        [⟨"a b", some "B-PER"⟩, ⟨"c", some "O"⟩])) = some [2, 1] from rfl] at h
  simp at h

theorem all_singleton_rows_shape (rows : List (List Nat))
    (hne : rows ≠ []) (h1 : ∀ r ∈ rows, r.length = 1) :
    torch_tensor_2d_shape rows = some [rows.length, 1] := by
  cases rows with
  | nil => exact absurd rfl hne
  | cons s rest =>
    have hs : s.length = 1 := h1 s (List.mem_cons_self s rest)
    have hall : rest.all (fun r => r.length = s.length) = true := by
      rw [List.all_eq_true]
      intro r hr
      have := h1 r (List.mem_cons_of_mem s hr)
      simp [this, hs]
    simp [torch_tensor_2d_shape, hall, hs]
    intro x hx
    exact h1 x (List.mem_cons_of_mem s hx)

/-- C2-amended claim for the sequence task (claim C7): for every nonempty
batch of sequence-classification samples that all carry labels, the collated
`labels` field is a 2-D integer tensor of shape `(number of samples, 1)` —
each sample's vocabulary label id in its own single-element row, in sample
order, with no padding. -/
theorem sequence_labels_two_dimensional (encode : String → List Nat)
    (vocab : Vocabulary) (samples : List SequenceSample)
    (hne : samples ≠ []) (hl : ∀ s ∈ samples, s.label.isSome) :
    collate_sequence_labels
        (HFSequenceDataset.dataset_iterator_func encode vocab samples) =
      samples.map (fun s => [vocab.get_idx "labels" (s.label.getD "")]) ∧
    torch_tensor_2d_shape (collate_sequence_labels
        (HFSequenceDataset.dataset_iterator_func encode vocab samples)) =
      some [samples.length, 1] := by
  have hrows : collate_sequence_labels
      (HFSequenceDataset.dataset_iterator_func encode vocab samples) =
      samples.map (fun s => [vocab.get_idx "labels" (s.label.getD "")]) := by
    unfold collate_sequence_labels gather_sequence_labels HFSequenceDataset.dataset_iterator_func
    clear hne
    induction samples with
    | nil => rfl
    | cons s ss ih =>
      have hsome : s.label.isSome := hl s (List.mem_cons_self s ss)
      obtain ⟨l, hls⟩ := Option.isSome_iff_exists.mp hsome
      simp only [List.map_cons, List.filterMap_cons, hls, Option.map_some]
      rw [ih fun x hx => hl x (List.mem_cons_of_mem s hx)]
      simp [hls]
  refine ⟨hrows, ?_⟩
  rw [hrows]
  have := all_singleton_rows_shape
    (samples.map (fun s => [vocab.get_idx "labels" (s.label.getD "")]))
    (by simpa using hne) (by intro r hr; obtain ⟨s, -, rfl⟩ := List.mem_map.mp hr; rfl)
  simpa using this

theorem sequence_labels_two_dimensional_witness :
    torch_tensor_2d_shape (collate_sequence_labels
        (HFSequenceDataset.dataset_iterator_func toy_sequence_encode toy_vocabulary
          [⟨"x", some "B-PER"⟩, ⟨"y z", some "O"⟩, ⟨"w", some "B-PER"⟩])) =
      some [3, 1] := by
  have h := sequence_labels_two_dimensional toy_sequence_encode toy_vocabulary
    [⟨"x", some "B-PER"⟩, ⟨"y z", some "O"⟩, ⟨"w", some "B-PER"⟩]
    (List.cons_ne_nil _ _) (by decide)
  exact h.2

/-! ## HFQADataset (src/classy/data/dataset/hf.py, lines 142-187)

The joint tokenization of (context, question) is abstracted to the fields
the dataset reads from it; `char_to_token cs` models
`tokenization_output.char_to_token(0, cs, sequence_index=0)` — the subword
holding context character `cs`, `none` when the character maps outside the
tokenized context (e.g. truncation). -/

structure QASample where
  context : String
  question : String
  char_start : Option Nat
  char_end : Option Nat

structure QATokenizationOutput where
  input_ids : List Nat
  attention_mask : List Nat
  token_type_ids : List Nat
  offset_mapping : List (Nat × Nat)
  char_to_token : Nat → Option Nat

/-- The normalized element yielded for one `QASample`.  The
`start_position` / `end_position` fields are `none` when absent (unlabeled
sample) and `some none` when present but holding Python `None` (a gold char
span that mapped outside the tokenized context). -/
structure QAElem where
  input_ids : List Nat
  attention_mask : List Nat
  token_type_ids : List Nat
  word2chars : List (Nat × Nat)
  start_position : Option (Option Nat)
  end_position : Option (Option Nat)
  sample : QASample

/-- `HFQADataset.dataset_iterator_func` (lines 151-176): positions are set
only when both char offsets are given, via `char_to_token(0, char_start)` and
`char_to_token(0, char_end - 1)`. -/
def HFQADataset.dataset_iterator_func (tokenizer : QASample → QATokenizationOutput)
    (samples : List QASample) : List QAElem :=
  samples.map (fun s =>
    let t := tokenizer s
    { input_ids := t.input_ids
      attention_mask := t.attention_mask
      token_type_ids := t.token_type_ids
      word2chars := t.offset_mapping
      start_position :=
        match s.char_start, s.char_end with
        | some cs, some _ => some (t.char_to_token cs)
        | _, _ => none
      end_position :=
        match s.char_start, s.char_end with
        | some _, some ce => some (t.char_to_token (ce - 1))
        | _, _ => none
      sample := s })

/-- `torch.tensor(lst, dtype=torch.long)` over a gathered list of position
values: raises `TypeError` when a Python `None` is among them. -/
def qa_positions_field_batcher (lst : List (Option Nat)) : Except String (List Int) :=
  match listMapOpt (fun x => x) lst with
  | some vs => .ok (vs.map (fun v => (v : Int)))
  | none => .error "TypeError: an element of the list is None"

/-- Modelled from the spec: batch assembly (classy/data/dataset/base.py) is
not under src/.  Per spec §8 ("start/end position fields are absent/undefined
for that sample ... field absence handled as skip for that key only, not
defaulted to 0 silently") and §4.1 ("the resulting position is undefined and
must be treated as 'no gold span for this example' ... not a fatal error"),
the collator gathers for the start/end position key only the values of the
elements whose field is present and defined, in order, skipping
absent/undefined ones. -/
def gather_defined_positions (elems : List QAElem) (f : QAElem → Option (Option Nat)) :
    List (Option Nat) :=
  (elems.filterMap (fun e => (f e).join)).map some

def collate_start_positions (elems : List QAElem) : Except String (List Int) :=
  qa_positions_field_batcher (gather_defined_positions elems (fun e => e.start_position))

def collate_end_positions (elems : List QAElem) : Except String (List Int) :=
  qa_positions_field_batcher (gather_defined_positions elems (fun e => e.end_position))

/-- C4: a `QASample` whose gold character span maps outside the tokenized
context gets present-but-undefined start/end positions (`some none`, i.e.
Python `None`, not a fatal error), and collating it in the same batch as a
sample with defined positions raises no exception: the collated position
tensors hold exactly the defined sample's positions. -/
theorem qa_undefined_span_not_fatal (tokenizer : QASample → QATokenizationOutput)
    (bad good : QASample) (cs ce gs ge ps pe : Nat)
    (hbs : bad.char_start = some cs) (hbe : bad.char_end = some ce)
    (hb1 : (tokenizer bad).char_to_token cs = none)
    (hb2 : (tokenizer bad).char_to_token (ce - 1) = none)
    (hgs : good.char_start = some gs) (hge : good.char_end = some ge)
    (hg1 : (tokenizer good).char_to_token gs = some ps)
    (hg2 : (tokenizer good).char_to_token (ge - 1) = some pe) :
    ∃ ebad egood : QAElem,
      HFQADataset.dataset_iterator_func tokenizer [bad, good] = [ebad, egood] ∧
      ebad.start_position = some none ∧ ebad.end_position = some none ∧
      egood.start_position = some (some ps) ∧ egood.end_position = some (some pe) ∧
      collate_start_positions [ebad, egood] = .ok [(ps : Int)] ∧
      collate_end_positions [ebad, egood] = .ok [(pe : Int)] := by
  refine ⟨_, _, rfl, ?_, ?_, ?_, ?_, ?_, ?_⟩ <;>
    simp [HFQADataset.dataset_iterator_func, hbs, hbe, hgs, hge, hb1, hb2, hg1, hg2,
      collate_start_positions, collate_end_positions, gather_defined_positions,
      qa_positions_field_batcher, listMapOpt]

def toy_qa_tokenization : QATokenizationOutput where
  input_ids := [0, 1, 2]
  attention_mask := [1, 1, 1]
  token_type_ids := [0, 0, 0]
  offset_mapping := [(0, 2), (2, 5), (5, 9)]
  char_to_token c := if c < 9 then some (if c < 2 then 0 else if c < 5 then 1 else 2) else none

def toy_qa_tokenizer (_s : QASample) : QATokenizationOutput := toy_qa_tokenization

theorem qa_undefined_span_not_fatal_witness :
    ∃ ebad egood : QAElem,
      HFQADataset.dataset_iterator_func toy_qa_tokenizer
        [⟨"abcdefghi", "q", some 20, some 25⟩, ⟨"abcdefghi", "q", some 2, some 5⟩] =
        [ebad, egood] ∧
      ebad.start_position = some none ∧
      collate_start_positions [ebad, egood] = .ok [(1 : Int)] := by
  obtain ⟨ebad, egood, hiter, hs, -, -, -, hcs, -⟩ :=
    qa_undefined_span_not_fatal toy_qa_tokenizer
      ⟨"abcdefghi", "q", some 20, some 25⟩ ⟨"abcdefghi", "q", some 2, some 5⟩
      20 25 2 5 1 1 rfl rfl (by decide) (by decide) rfl rfl (by decide) (by decide)
  exact ⟨ebad, egood, hiter, hs, hcs⟩

/-! ## HFQAPLModule.predict (src/classy/pl_modules/hf.py, lines 342-360)

For each sample `i`: `start_char = word2chars[i][start_position][0].item()
if start_position < len(word2chars[i]) else -1`, and symmetrically
`end_char = word2chars[i][end_position][-1].item()` — the first, resp. last,
entry of the character-offset pair of the predicted subword, with sentinel
`-1` when the predicted position falls beyond that sample's offset entries.
Python indexing of `predictions[0][i]`, `predictions[1][i]` and
`word2chars[i]` can raise `IndexError`, modelled by `Option`. -/

def HFQAPLModule.predict_chars (start_predictions end_predictions : List Nat)
    (word2chars : List (List (Nat × Nat))) (n_samples : Nat) :
    Option (List (Int × Int)) :=
  listMapOpt (fun i =>
    match start_predictions.get? i, end_predictions.get? i, word2chars.get? i with
    | some sp, some ep, some w =>
      some ((if sp < w.length then ((w.getD sp (0, 0)).1 : Int) else -1),
        (if ep < w.length then ((w.getD ep (0, 0)).2 : Int) else -1))
    | _, _, _ => none)
    (List.range n_samples)

/-- C10: in `HFQAPLModule.predict`, for every sample `i`, when the predicted
start (resp. end) subword position is strictly below the number of that
sample's character-offset entries the yielded start (end) character is the
first (last) character offset of that subword, and otherwise it is the
sentinel `-1`. -/
theorem qa_predict_char_positions (start_predictions end_predictions : List Nat)
    (word2chars : List (List (Nat × Nat))) (n : Nat)
    (hs : n ≤ start_predictions.length) (he : n ≤ end_predictions.length)
    (hw : n ≤ word2chars.length) :
    ∃ out : List (Int × Int),
      HFQAPLModule.predict_chars start_predictions end_predictions word2chars n = some out ∧
      out.length = n ∧
      ∀ i, i < n →
        out.getD i (0, 0) =
          ((if start_predictions.getD i 0 < (word2chars.getD i []).length then
              (((word2chars.getD i []).getD (start_predictions.getD i 0) (0, 0)).1 : Int)
            else -1),
           (if end_predictions.getD i 0 < (word2chars.getD i []).length then
              (((word2chars.getD i []).getD (end_predictions.getD i 0) (0, 0)).2 : Int)
            else -1)) := by
  set g : Nat → Int × Int := fun i =>
    ((if start_predictions.getD i 0 < (word2chars.getD i []).length then
        (((word2chars.getD i []).getD (start_predictions.getD i 0) (0, 0)).1 : Int)
      else -1),
     (if end_predictions.getD i 0 < (word2chars.getD i []).length then
        (((word2chars.getD i []).getD (end_predictions.getD i 0) (0, 0)).2 : Int)
      else -1)) with hg
  have hout : HFQAPLModule.predict_chars start_predictions end_predictions word2chars n =
      some ((List.range n).map g) := by
    unfold HFQAPLModule.predict_chars
    apply listMapOpt_eq_map
    intro i hi
    have hin : i < n := List.mem_range.mp hi
    have h1 : start_predictions.get? i = some (start_predictions.getD i 0) := by
      rw [List.getD_eq_getElem _ _ (by omega), List.get?_eq_getElem?, List.getElem?_eq_getElem]
    have h2 : end_predictions.get? i = some (end_predictions.getD i 0) := by
      rw [List.getD_eq_getElem _ _ (by omega), List.get?_eq_getElem?, List.getElem?_eq_getElem]
    have h3 : word2chars.get? i = some (word2chars.getD i []) := by
      rw [List.getD_eq_getElem _ _ (by omega), List.get?_eq_getElem?, List.getElem?_eq_getElem]
    rw [h1, h2, h3]
  refine ⟨(List.range n).map g, hout, by simp, ?_⟩
  intro i hi
  rw [List.getD_eq_getElem _ _ (by simpa using hi), List.getElem_map, List.getElem_range]

theorem qa_predict_char_positions_witness :
    ∃ out : List (Int × Int),
      HFQAPLModule.predict_chars [1, 5] [2, 0] [[(0, 2), (2, 5), (5, 9)], [(0, 3)]] 2 =
        some out ∧
      out.getD 0 (0, 0) = (2, 9) ∧ out.getD 1 (0, 0) = (-1, 3) := by
  obtain ⟨out, hout, -, hvals⟩ :=
    qa_predict_char_positions [1, 5] [2, 0] [[(0, 2), (2, 5), (5, 9)], [(0, 3)]] 2
      (by decide) (by decide) (by decide)
  refine ⟨out, hout, ?_, ?_⟩
  · have := hvals 0 (by decide)
    simpa using this
  · have := hvals 1 (by decide)
    simpa using this

/-! ## HFTokensPLModule.forward — layer merge (src/classy/pl_modules/hf.py,
lines 174-181)

`if self.use_last_n_layers > 1: encoded_bpes = torch.stack(
   self.encoder(...)[2][-self.use_last_n_layers:], dim=-1).sum(-1)
 else: encoded_bpes = self.encoder(...)[0]`

A batch × subword × hidden tensor is a `Tensor3`; `torch.stack(..., dim=-1)`
followed by `.sum(-1)` over layers of identical shape is their elementwise
sum (`torch.stack` raises on an empty list or on mismatched shapes). -/

abbrev Vec := List Int

abbrev Mat := List Vec

abbrev Tensor3 := List Mat

def idx3 (t : Tensor3) (i j h : Nat) : Int := ((t.getD i []).getD j []).getD h 0

def Rect3 (t : Tensor3) (B S H : Nat) : Prop :=
  t.length = B ∧ (∀ i, i < B → (t.getD i []).length = S) ∧
    (∀ i, i < B → ∀ j, j < S → ((t.getD i []).getD j []).length = H)

def addVec (a b : Vec) : Vec := List.zipWith (· + ·) a b

def addMat (a b : Mat) : Mat := List.zipWith addVec a b

def add3 (a b : Tensor3) : Tensor3 := List.zipWith addMat a b

def shapeOf (t : Tensor3) : List (List Nat) := t.map (fun m => m.map List.length)

def sameShape3 (a b : Tensor3) : Bool := shapeOf a == shapeOf b

/-- Python `layers[-n:]` for `n ≥ 1`: the last `n` elements (the whole list
when `n` exceeds its length). -/
def takeLast {α : Type} (n : Nat) (xs : List α) : List α := xs.drop (xs.length - n)

def stack_sum_last (layers : List Tensor3) : Option Tensor3 :=
  match layers with
  | [] => none
  | l0 :: rest =>
    if rest.all (fun l => sameShape3 l0 l) then some (rest.foldl add3 l0) else none

/-- The encoder output as `HFTokensPLModule.forward` reads it:
`model_output[0]` is the final layer, `model_output[2]` the per-layer hidden
states (`output_hidden_states=True`). -/
structure EncoderOutput where
  last_hidden_state : Tensor3
  hidden_states : List Tensor3

def encoded_bpes (use_last_n_layers : Nat) (out : EncoderOutput) : Option Tensor3 :=
  if 1 < use_last_n_layers then
    stack_sum_last (takeLast use_last_n_layers out.hidden_states)
  else some out.last_hidden_state

theorem getD_zipWith {α β γ : Type} (f : α → β → γ) :
    ∀ (a : List α) (b : List β) (i : Nat), i < a.length → i < b.length →
      ∀ (d1 : α) (d2 : β) (d3 : γ),
        (List.zipWith f a b).getD i d3 = f (a.getD i d1) (b.getD i d2) := by
  intro a
  induction a with
  | nil => intro b i hi; simp at hi
  | cons x xs ih =>
    intro b i hia hib d1 d2 d3
    cases b with
    | nil => simp at hib
    | cons y ys =>
      cases i with
      | zero => rfl
      | succ m =>
        simp only [List.zipWith_cons_cons, List.getD_cons_succ]
        exact ih ys m (by simpa using hia) (by simpa using hib) d1 d2 d3

theorem add3_rect {a b : Tensor3} {B S H : Nat} (ha : Rect3 a B S H) (hb : Rect3 b B S H) :
    Rect3 (add3 a b) B S H := by
  obtain ⟨ha1, ha2, ha3⟩ := ha
  obtain ⟨hb1, hb2, hb3⟩ := hb
  have hlen : (add3 a b).length = B := by
    unfold add3
    rw [List.length_zipWith, ha1, hb1, Nat.min_self]
  have hrow : ∀ i, i < B → (add3 a b).getD i [] = addMat (a.getD i []) (b.getD i []) := by
    intro i hi
    exact getD_zipWith addMat a b i (by omega) (by omega) [] [] []
  refine ⟨hlen, ?_, ?_⟩
  · intro i hi
    rw [hrow i hi]
    unfold addMat
    rw [List.length_zipWith, ha2 i hi, hb2 i hi, Nat.min_self]
  · intro i hi j hj
    rw [hrow i hi]
    have hcell : (addMat (a.getD i []) (b.getD i [])).getD j [] =
        addVec ((a.getD i []).getD j []) ((b.getD i []).getD j []) :=
      getD_zipWith addVec _ _ j (by rw [ha2 i hi]; omega) (by rw [hb2 i hi]; omega) [] [] []
    rw [hcell]
    unfold addVec
    rw [List.length_zipWith, ha3 i hi j hj, hb3 i hi j hj, Nat.min_self]

theorem add3_idx {a b : Tensor3} {B S H i j h : Nat}
    (ha : Rect3 a B S H) (hb : Rect3 b B S H) (hi : i < B) (hj : j < S) (hh : h < H) :
    idx3 (add3 a b) i j h = idx3 a i j h + idx3 b i j h := by
  obtain ⟨ha1, ha2, ha3⟩ := ha
  obtain ⟨hb1, hb2, hb3⟩ := hb
  unfold idx3 add3
  rw [getD_zipWith addMat a b i (by omega) (by omega) [] [] []]
  unfold addMat
  rw [getD_zipWith addVec _ _ j (by rw [ha2 i hi]; omega) (by rw [hb2 i hi]; omega) [] [] []]
  unfold addVec
  rw [getD_zipWith (· + ·) _ _ h (by rw [ha3 i hi j hj]; omega) (by rw [hb3 i hi j hj]; omega) 0 0 0]

theorem foldl_add3_rect {B S H : Nat} :
    ∀ (rest : List Tensor3) (l0 : Tensor3), Rect3 l0 B S H →
      (∀ L ∈ rest, Rect3 L B S H) → Rect3 (rest.foldl add3 l0) B S H := by
  intro rest
  induction rest with
  | nil => intro l0 h0 _; exact h0
  | cons L rest ih =>
    intro l0 h0 hall
    have hL := hall L (List.mem_cons_self _ _)
    exact ih (add3 l0 L) (add3_rect h0 hL) (fun x hx => hall x (List.mem_cons_of_mem _ hx))

theorem foldl_add3_idx {B S H i j h : Nat} (hi : i < B) (hj : j < S) (hh : h < H) :
    ∀ (rest : List Tensor3) (l0 : Tensor3), Rect3 l0 B S H →
      (∀ L ∈ rest, Rect3 L B S H) →
      idx3 (rest.foldl add3 l0) i j h =
        idx3 l0 i j h + (rest.map (fun L => idx3 L i j h)).sum := by
  intro rest
  induction rest with
  | nil => intro l0 _ _; simp
  | cons L rest ih =>
    intro l0 h0 hall
    have hL := hall L (List.mem_cons_self _ _)
    have hstep := ih (add3 l0 L) (add3_rect h0 hL) (fun x hx => hall x (List.mem_cons_of_mem _ hx))
    rw [List.foldl_cons, hstep, add3_idx h0 hL hi hj hh]
    simp
    ring

instance Rect3.decidable (t : Tensor3) (B S H : Nat) : Decidable (Rect3 t B S H) := by
  unfold Rect3
  infer_instance

theorem rect3_shapeOf {t : Tensor3} {B S H : Nat} (ht : Rect3 t B S H) :
    shapeOf t = List.replicate B (List.replicate S H) := by
  obtain ⟨h1, h2, h3⟩ := ht
  apply List.ext_getElem
  · simp [shapeOf, h1]
  · intro i hi1 hi2
    have hiB : i < B := by simpa using hi2
    have hit : i < t.length := by omega
    rw [List.getElem_replicate]
    simp only [shapeOf, List.getElem_map]
    have hti : t[i] = t.getD i [] := (List.getD_eq_getElem t [] hit).symm
    rw [hti]
    apply List.ext_getElem
    · rw [List.length_map, List.length_replicate]
      exact h2 i hiB
    · intro j hj1 hj2
      have hjS : j < S := by simpa using hj2
      have hjt : j < (t.getD i []).length := by rw [h2 i hiB]; omega
      rw [List.getElem_replicate, List.getElem_map]
      have htj : (t.getD i [])[j] = (t.getD i []).getD j [] :=
        (List.getD_eq_getElem _ [] hjt).symm
      rw [htj]
      exact h3 i hiB j hjS

/-- C8: in `HFTokensPLModule.forward`, when `use_last_n_layers = N > 1` the
subword representation fed to pooling is the elementwise sum of the last `N`
hidden-state layers of the encoder; when `N = 1` it is the encoder's
final-layer output. -/
theorem layer_merge_strategy_correct (use_last_n_layers B S H : Nat) (out : EncoderOutput)
    (hrect : ∀ L ∈ out.hidden_states, Rect3 L B S H)
    (hlen : use_last_n_layers ≤ out.hidden_states.length) :
    (use_last_n_layers = 1 → encoded_bpes use_last_n_layers out = some out.last_hidden_state) ∧
    (1 < use_last_n_layers →
      ∃ t, encoded_bpes use_last_n_layers out = some t ∧ Rect3 t B S H ∧
        ∀ i j h, i < B → j < S → h < H →
          idx3 t i j h =
            ((takeLast use_last_n_layers out.hidden_states).map
              (fun L => idx3 L i j h)).sum) := by
  constructor
  · intro h1
    simp [encoded_bpes, h1]
  · intro hN
    have hmem : ∀ L ∈ takeLast use_last_n_layers out.hidden_states, Rect3 L B S H := by
      intro L hL
      exact hrect L (List.mem_of_mem_drop hL)
    have hlength : (takeLast use_last_n_layers out.hidden_states).length =
        use_last_n_layers := by
      unfold takeLast
      rw [List.length_drop]
      omega
    cases hls : takeLast use_last_n_layers out.hidden_states with
    | nil => rw [hls] at hlength; simp at hlength; omega
    | cons l0 rest =>
      rw [hls] at hmem
      have h0 : Rect3 l0 B S H := hmem l0 (List.mem_cons_self _ _)
      have hall : ∀ L ∈ rest, Rect3 L B S H :=
        fun x hx => hmem x (List.mem_cons_of_mem _ hx)
      have hguard : rest.all (fun l => sameShape3 l0 l) = true := by
        rw [List.all_eq_true]
        intro l hl
        have := rect3_shapeOf (hall l hl)
        simp [sameShape3, rect3_shapeOf h0, this]
      refine ⟨rest.foldl add3 l0, ?_, foldl_add3_rect rest l0 h0 hall, ?_⟩
      · simp only [encoded_bpes, if_pos hN, hls, stack_sum_last, hguard, if_true]
      · intro i j h hi hj hh
        rw [foldl_add3_idx hi hj hh rest l0 h0 hall]
        simp

def toy_encoder_output : EncoderOutput where
  last_hidden_state := [[[9]]]
  hidden_states := [[[[1]]], [[[2]]], [[[3]]]]

theorem layer_merge_strategy_correct_witness :
    ∃ t, encoded_bpes 2 toy_encoder_output = some t ∧ idx3 t 0 0 0 = 5 := by
  obtain ⟨-, h2⟩ :=
    layer_merge_strategy_correct 2 1 1 1 toy_encoder_output (by decide) (by decide)
  obtain ⟨t, ht, -, hidx⟩ := h2 (by decide)
  refine ⟨t, ht, ?_⟩
  rw [hidx 0 0 0 (by decide) (by decide) (by decide)]
  decide

/-! ## HFTokensPLModule.forward — subword-to-token pooling
(src/classy/pl_modules/hf.py, lines 183-191)

`encoded_tokens = torch.zeros((input_ids.shape[0], max(map(len, token_offsets)),
encoded_bpes.shape[-1]), ...)`, then for each batch element `i`:
`encoded_tokens[i, : len(sample_offsets)] =
   torch.stack([encoded_bpes[i, sj] for sj, ej in sample_offsets])`.

`max()` of an empty sequence raises `ValueError`; `torch.stack` of an empty
list raises; indexing `encoded_bpes[i, sj]` out of range raises
`IndexError` — all modelled as `none`. -/

def max_token_count (token_offsets : List (List (Nat × Nat))) : Nat :=
  (token_offsets.map List.length).foldl Nat.max 0

/-- `encoded_bpes.shape[-1]` of the batch × subword × hidden tensor. -/
def hidden_dim (t : Tensor3) : Nat := ((t.headD []).headD []).length

def pool_first_subword (encodedBpes : Tensor3)
    (token_offsets : List (List (Nat × Nat))) : Option Tensor3 :=
  if token_offsets.isEmpty then none
  else
    listMapOpt (fun p =>
      if p.2.isEmpty then none
      else
        (listMapOpt (fun so => p.1.get? so.1) p.2).map
          (fun firsts => firsts ++ List.replicate
            (max_token_count token_offsets - p.2.length)
            (List.replicate (hidden_dim encodedBpes) 0)))
      (encodedBpes.zip token_offsets)

theorem getD_map_of_lt {α β : Type} (f : α → β) (l : List α) {i : Nat}
    (h : i < l.length) (d1 : α) (d2 : β) : (l.map f).getD i d2 = f (l.getD i d1) := by
  rw [List.getD_eq_getElem _ _ (by simpa using h), List.getElem_map,
    List.getD_eq_getElem _ _ h]

theorem rect3_length_of_mem {t : Tensor3} {S H : Nat}
    (ht : Rect3 t t.length S H) {m : Mat} (hm : m ∈ t) : m.length = S := by
  obtain ⟨i, hi, hget⟩ := List.getElem_of_mem hm
  have : t.getD i [] = m := by rw [List.getD_eq_getElem _ _ hi, hget]
  rw [← this]
  exact ht.2.1 i hi

/-- C3: under well-formed inputs (a rectangular batch × subword × hidden
encoder output, one nonempty offset list per batch element, every span start
within the subword count), the pooling of `HFTokensPLModule.forward` yields a
tensor of shape (batch size, max token count over the batch, hidden dim)
whose row `(i, j)`, for `j` below element `i`'s token count, is the encoder
vector of the first subword `sj` of that token's span, and whose rows at or
beyond element `i`'s token count are zero vectors. -/
theorem pool_first_subword_correct (encodedBpes : Tensor3)
    (token_offsets : List (List (Nat × Nat))) (S H : Nat)
    (hlen : encodedBpes.length = token_offsets.length)
    (hne : token_offsets ≠ [])
    (hrect : Rect3 encodedBpes encodedBpes.length S H)
    (hS : 0 < S)
    (hoffs : ∀ o ∈ token_offsets, o ≠ [] ∧ ∀ so ∈ o, so.1 < S) :
    ∃ t, pool_first_subword encodedBpes token_offsets = some t ∧
      Rect3 t encodedBpes.length (max_token_count token_offsets) H ∧
      (∀ i j, i < encodedBpes.length → j < (token_offsets.getD i []).length →
        (t.getD i []).getD j [] =
          (encodedBpes.getD i []).getD ((token_offsets.getD i []).getD j (0, 0)).1 []) ∧
      (∀ i j, i < encodedBpes.length → (token_offsets.getD i []).length ≤ j →
        j < max_token_count token_offsets →
        (t.getD i []).getD j [] = List.replicate H 0) := by
  have hB : 0 < encodedBpes.length := by
    rw [hlen]
    exact List.length_pos.mpr hne
  -- the hidden dimension read off the tensor is H
  have hhd : hidden_dim encodedBpes = H := by
    obtain ⟨m, ms, hm⟩ := List.exists_cons_of_ne_nil (List.length_pos.mp hB)
    have hm0 : encodedBpes.getD 0 [] = m := by rw [hm]; rfl
    have hmS : m.length = S := by rw [← hm0]; exact hrect.2.1 0 hB
    obtain ⟨v, vs, hv⟩ := List.exists_cons_of_ne_nil
      (List.length_pos.mp (by rw [hmS]; exact hS))
    have hv0 : (encodedBpes.getD 0 []).getD 0 [] = v := by rw [hm0, hv]; rfl
    have hvH : v.length = H := by rw [← hv0]; exact hrect.2.2 0 hB 0 hS
    unfold hidden_dim
    rw [hm, hv]
    simpa using hvH
  set M := max_token_count token_offsets with hM
  set zH : Vec := List.replicate H 0 with hzH
  set g : Mat × List (Nat × Nat) → Mat := fun p =>
    (p.2.map (fun so => p.1.getD so.1 [])) ++ List.replicate (M - p.2.length) zH with hg
  -- every zipped pair maps successfully to its explicit row
  have hmap : pool_first_subword encodedBpes token_offsets =
      some ((encodedBpes.zip token_offsets).map g) := by
    unfold pool_first_subword
    rw [if_neg (by simpa [List.isEmpty_iff] using hne)]
    apply listMapOpt_eq_map
    intro p hp
    obtain ⟨bpes, offs⟩ := p
    obtain ⟨hmem1, hmem2⟩ := List.of_mem_zip hp
    obtain ⟨hone, hspans⟩ := hoffs offs hmem2
    have hbS : bpes.length = S := rect3_length_of_mem hrect hmem1
    have hinner : listMapOpt (fun so => bpes.get? so.1) offs =
        some (offs.map (fun so => bpes.getD so.1 [])) := by
      apply listMapOpt_eq_map
      intro so hso
      have hlt : so.1 < bpes.length := by rw [hbS]; exact hspans so hso
      rw [List.getD_eq_getElem _ _ hlt, List.get?_eq_getElem?, List.getElem?_eq_getElem]
    rw [if_neg (by simpa [List.isEmpty_iff] using hone)]
    rw [hinner, hhd]
    simp only [hg, hM, hzH]
    rfl
  -- each row of the result, explicitly
  have hrow : ∀ i, i < encodedBpes.length →
      (((encodedBpes.zip token_offsets).map g).getD i []) =
        ((token_offsets.getD i []).map
          (fun so => (encodedBpes.getD i []).getD so.1 [])) ++
          List.replicate (M - (token_offsets.getD i []).length) zH := by
    intro i hi
    have hzlen : i < (encodedBpes.zip token_offsets).length := by
      rw [List.length_zip]
      omega
    rw [getD_map_of_lt g _ hzlen ([], []) []]
    have hzget : (encodedBpes.zip token_offsets).getD i ([], []) =
        (encodedBpes.getD i [], token_offsets.getD i []) := by
      rw [List.zip_eq_zipWith]
      exact getD_zipWith Prod.mk encodedBpes token_offsets i (by omega) (by omega) [] []
        ([], [])
    rw [hzget]
  have hoffs_len : ∀ i, i < encodedBpes.length →
      (token_offsets.getD i []).length ≤ M := by
    intro i hi
    have hmem : token_offsets.getD i [] ∈ token_offsets := by
      rw [List.getD_eq_getElem _ _ (by omega)]
      exact List.getElem_mem _
    exact le_foldl_max_of_mem (List.mem_map_of_mem List.length hmem) 0
  have hoffs_mem : ∀ i, i < encodedBpes.length → ∀ j, j < (token_offsets.getD i []).length →
      ((token_offsets.getD i []).getD j (0, 0)).1 < S := by
    intro i hi j hj
    have hmem : token_offsets.getD i [] ∈ token_offsets := by
      rw [List.getD_eq_getElem _ _ (by omega)]
      exact List.getElem_mem _
    have hsomem : (token_offsets.getD i []).getD j (0, 0) ∈ token_offsets.getD i [] := by
      rw [List.getD_eq_getElem _ _ hj]
      exact List.getElem_mem _
    exact (hoffs _ hmem).2 _ hsomem
  refine ⟨(encodedBpes.zip token_offsets).map g, hmap, ⟨?_, ?_, ?_⟩, ?_, ?_⟩
  · rw [List.length_map, List.length_zip]
    omega
  · intro i hi
    rw [hrow i hi, List.length_append, List.length_map, List.length_replicate]
    have := hoffs_len i hi
    omega
  · intro i hi j hj
    rw [hrow i hi]
    by_cases hcase : j < (token_offsets.getD i []).length
    · rw [List.getD_append _ _ _ _ (by rw [List.length_map]; exact hcase),
        getD_map_of_lt _ _ hcase (0, 0) []]
      exact hrect.2.2 i hi _ (hoffs_mem i hi j hcase)
    · rw [List.getD_append_right _ _ _ _ (by rw [List.length_map]; omega)]
      rw [List.length_map]
      rw [getD_replicate_of_lt zH [] (by have := hoffs_len i hi; omega)]
      simp [hzH]
  · intro i j hi hj
    rw [hrow i hi, List.getD_append _ _ _ _ (by rw [List.length_map]; exact hj),
      getD_map_of_lt _ _ hj (0, 0) []]
  · intro i j hi hj1 hj2
    rw [hrow i hi, List.getD_append_right _ _ _ _ (by rw [List.length_map]; exact hj1)]
    rw [List.length_map]
    exact getD_replicate_of_lt zH [] (by have := hoffs_len i hi; omega)

theorem pool_first_subword_correct_witness :
    ∃ t, pool_first_subword [[[1, 2], [3, 4]], [[5, 6], [7, 8]]]
        [[(0, 1), (1, 2)], [(1, 2)]] = some t ∧
      (t.getD 1 []).getD 0 [] = [7, 8] ∧ (t.getD 1 []).getD 1 [] = [0, 0] := by
  obtain ⟨t, ht, -, hval, hzero⟩ :=
    pool_first_subword_correct [[[1, 2], [3, 4]], [[5, 6], [7, 8]]]
      [[(0, 1), (1, 2)], [(1, 2)]] 2 2 rfl (by decide) (by decide) (by decide) (by decide)
  refine ⟨t, ht, ?_, ?_⟩
  · have h := hval 1 0 (by decide) (by decide)
    rw [h]
    decide
  · have h := hzero 1 1 (by decide) (by decide) (by decide)
    rw [h]
    decide
